import Mathlib

/-!
Shallow embedding of the golinq library (package gl, golinq.go).

The library operates on Go channels wired between goroutines.  Observably,
a channel argument or result is either `nil` (absent) or a channel that
delivers a finite sequence of values and afterwards either closes or
delivers nothing more forever (when its producing goroutine is blocked or
runs on).  We model this observable behaviour as `Chan T`:

  * `Chan.absent`            — the `nil` channel;
  * `Chan.stream xs closes`  — a channel that delivers the values `xs` in
    order and afterwards is closed (`closes = true`) or delivers nothing
    and never closes (`closes = false`, e.g. a producer that keeps running
    or is blocked forever).

Each operator's goroutine body is embedded as a structurally recursive
function over the list of values its input delivers; the exported operator
is then the function on `Chan` obtained from the Go function's body,
including its `nil` handling (or lack of it).  Go `int` is modelled as
`Int`.  Loops that consume from a channel also report how many values they
received (receiving the "closed" sentinel is not counted) and whether they
terminated, which determines whether the output channel gets closed.
-/

namespace GoLinq

/-- Observable behaviour of a Go channel: absent (`nil`), or a stream of
delivered values together with whether the channel is closed afterwards. -/
inductive Chan (T : Type) where
  | absent : Chan T
  | stream (values : List T) (closes : Bool) : Chan T
deriving DecidableEq

/-- Body of `Map`'s goroutine: `for s := range source { output <- mapper(s) }`. -/
def mapLoop (mapper : T1 → T2) : List T1 → List T2
  | [] => []
  | s :: rest => mapper s :: mapLoop mapper rest

/-- Go `func Map[T1, T2](source chan T1, mapper func(T1) T2) chan T2`.
Returns `nil` on a `nil` source; otherwise one output per input value, in
order, and the output closes exactly when the loop ends, i.e. when the
source closes. -/
def Map (source : Chan T1) (mapper : T1 → T2) : Chan T2 :=
  match source with
  | .absent => .absent
  | .stream xs closes => .stream (mapLoop mapper xs) closes

/-- Body of `Filter`'s goroutine: forwards the values satisfying the
predicate. -/
def filterLoop (predicate : T → Bool) : List T → List T
  | [] => []
  | s :: rest =>
      if predicate s then s :: filterLoop predicate rest
      else filterLoop predicate rest

/-- Go `func Filter[T](source chan T, predicate func(T) bool) chan T`.
Returns `nil` on a `nil` source. -/
def Filter (source : Chan T) (predicate : T → Bool) : Chan T :=
  match source with
  | .absent => .absent
  | .stream xs closes => .stream (filterLoop predicate xs) closes

/-- Body of `Zip`'s goroutine.  Each iteration receives one value from
`xs` then one from `ys`; if either receive reports a closed channel the
loop breaks and the output is closed.  `xc`/`yc` say whether the
respective input closes after its listed values; receiving from an
exhausted input that never closes blocks the goroutine forever, so the
loop does not terminate and the output is never closed.
Result: (values sent, number received from `xs`, number received from
`ys`, whether the loop terminated, i.e. the output gets closed). -/
def zipLoop (mapper : T1 → T2 → T3) (xc yc : Bool) :
    List T1 → List T2 → List T3 × Nat × Nat × Bool
  | x :: xs, y :: ys =>
      let r := zipLoop mapper xc yc xs ys
      (mapper x y :: r.1, r.2.1 + 1, r.2.2.1 + 1, r.2.2.2)
  | [], _ :: _ =>
      -- receive from exhausted xs: close sentinel if xc, else block forever
      if xc then ([], 0, 1, true) else ([], 0, 0, false)
  | [], [] =>
      if xc then (if yc then ([], 0, 0, true) else ([], 0, 0, false))
      else ([], 0, 0, false)
  | _ :: _, [] =>
      -- x is received (and discarded); then ys yields its close sentinel if yc
      if yc then ([], 1, 0, true) else ([], 1, 0, false)

/-- Go `func Zip[T1, T2, T3](xs chan T1, ys chan T2, mapper func(T1, T2) T3) chan T3`.
Returns `nil` if either input is `nil`. -/
def Zip (xs : Chan T1) (ys : Chan T2) (mapper : T1 → T2 → T3) : Chan T3 :=
  match xs, ys with
  | .absent, _ => .absent
  | .stream _ _, .absent => .absent
  | .stream xv xc, .stream yv yc =>
      let r := zipLoop mapper xc yc xv yv
      .stream r.1 r.2.2.2

/-- Body of `Take`'s goroutine:
`for s := range source { taken++; if taken > count { break }; output <- s }`.
Result: (values sent, number received, whether the loop broke early).
If the loop does not break, it ends only when the source closes. -/
def takeLoop (count taken : Int) : List T → List T × Nat × Bool
  | [] => ([], 0, false)
  | s :: rest =>
      if taken + 1 > count then ([], 1, true)
      else
        let r := takeLoop count (taken + 1) rest
        (s :: r.1, r.2.1 + 1, r.2.2)

/-- Go `func Take[T](source chan T, count int) chan T`.
NOTE: unlike `Map`/`Filter`/`Zip`, `Take` has no `nil` check: on a `nil`
source it still allocates an output channel whose goroutine blocks forever
ranging over the `nil` channel, so the output never receives a value and
is never closed.  On a present source the output closes when the loop
breaks early or the source closes. -/
def Take (source : Chan T) (count : Int) : Chan T :=
  match source with
  | .absent => .stream [] false
  | .stream xs closes =>
      let r := takeLoop count 0 xs
      .stream r.1 (r.2.2 || closes)

/-- Body of `Skip`'s goroutine:
`for s := range source { skipped++; if skipped > count { output <- s } }`. -/
def skipLoop (count skipped : Int) : List T → List T
  | [] => []
  | s :: rest =>
      if skipped + 1 > count then s :: skipLoop count (skipped + 1) rest
      else skipLoop count (skipped + 1) rest

/-- Go `func Skip[T](source chan T, count int) chan T`.
Like `Take`, `Skip` has no `nil` check: on a `nil` source the goroutine
blocks forever and the non-`nil` output never receives a value and is
never closed.  Otherwise the loop never breaks, so the output closes
exactly when the source closes. -/
def Skip (source : Chan T) (count : Int) : Chan T :=
  match source with
  | .absent => .stream [] false
  | .stream xs closes => .stream (skipLoop count 0 xs) closes

/-- Body of `Max`'s loop; `mx` is the running maximum (Go: `var max T`,
the zero value), `fst` is the `first` flag. -/
def maxLoop [LinearOrder T] (mx : T) (fst : Bool) : List T → T
  | [] => mx
  | s :: rest =>
      if fst = true ∨ mx < s then maxLoop s false rest
      else maxLoop mx false rest

/-- Go `func Max[T cmp.Ordered](source chan T) T`.  `zero` is the zero value
of `T` (`var max T`).  Draining requires the source to close; on an absent
or never-closing source the call blocks forever, modelled as `none`. -/
def Max [LinearOrder T] (zero : T) (source : Chan T) : Option T :=
  match source with
  | .absent => none
  | .stream xs closes => if closes then some (maxLoop zero true xs) else none

/-- Go `func First[T any](source chan T) T`: a single receive.  A value if one
arrives; the zero value if the source closes first; blocks forever
(`none`) otherwise. -/
def First (zero : T) (source : Chan T) : Option T :=
  match source with
  | .absent => none
  | .stream [] closes => if closes then some zero else none
  | .stream (x :: _) _ => some x

/-- Body of `Last`'s loop (Go: `var last T` then `last = s` per value). -/
def lastLoop (last : T) : List T → T
  | [] => last
  | s :: rest => lastLoop s rest

/-- Go `func Last[T any](source chan T) T`. -/
def Last (zero : T) (source : Chan T) : Option T :=
  match source with
  | .absent => none
  | .stream xs closes => if closes then some (lastLoop zero xs) else none

/-- Body of `Count`'s loop. -/
def countLoop : List T → Int
  | [] => 0
  | _ :: rest => countLoop rest + 1

/-- Go `func Count[T any](source chan T) int`. -/
def Count (source : Chan T) : Option Int :=
  match source with
  | .absent => none
  | .stream xs closes => if closes then some (countLoop xs) else none

/-- Body of `Sum`'s loop (`ret += s`), instantiated at Go `int`. -/
def sumLoop (ret : Int) : List Int → Int
  | [] => ret
  | s :: rest => sumLoop (ret + s) rest

/-- Go `func Sum[T ...](source chan T) T`, at element type `int`. -/
def Sum (source : Chan Int) : Option Int :=
  match source with
  | .absent => none
  | .stream xs closes => if closes then some (sumLoop 0 xs) else none

/-- Go `func From[T any](source []T) chan T`: sends each element in order,
then closes the channel. -/
def From (source : List T) : Chan T := .stream source true

/-- The loop of `Fibonaccis`' goroutine after the two initial sends: with
state `(a, b)` it sends `c := a + b` and continues with `(b, c)`.
`fibLoop a b n` is the list of its first `n` sends. -/
def fibLoop (a b : Int) : Nat → List Int
  | 0 => []
  | n + 1 => (a + b) :: fibLoop b (a + b) n

/-- The first `m` values sent by `Fibonaccis()`'s goroutine: `a = 1`, then
`b = 1`, then the loop values.  The goroutine runs forever, so the channel
delivers `fibSends m` for every `m` and never closes. -/
def fibSends : Nat → List Int
  | 0 => []
  | 1 => [1]
  | n + 2 => 1 :: 1 :: fibLoop 1 1 n

/-! Helper lemmas about the loop bodies. -/

/-- Characterisation of `takeLoop` for a non-exceeded counter: it sends the
next `count - taken` values, receives one more value than it sends when one
is available, and breaks early exactly when the source has more values than
it sends. -/
theorem takeLoop_eq {T : Type} (xs : List T) : ∀ (count taken : Int), taken ≤ count →
    takeLoop count taken xs =
      (xs.take (count - taken).toNat,
       min ((count - taken).toNat + 1) xs.length,
       decide ((count - taken).toNat < xs.length)) := by
  induction xs with
  | nil =>
      intro count taken _
      simp [takeLoop]
  | cons s rest ih =>
      intro count taken h
      by_cases hb : taken + 1 > count
      · have h0 : (count - taken).toNat = 0 := by omega
        simp [takeLoop, hb, h0]
        try omega
      · have h1 : taken + 1 ≤ count := by omega
        have key : (count - taken).toNat = (count - (taken + 1)).toNat + 1 := by omega
        simp [takeLoop, hb, ih count (taken + 1) h1, key, Nat.succ_lt_succ_iff]
        try omega

/-- Characterisation of `skipLoop`: it drops the next `count - skipped`
values and forwards the rest. -/
theorem skipLoop_eq {T : Type} (xs : List T) : ∀ (count skipped : Int),
    skipLoop count skipped xs = xs.drop (count - skipped).toNat := by
  induction xs with
  | nil => intro c k; simp [skipLoop]
  | cons a rest ih =>
      intro c k
      by_cases hb : k + 1 > c
      · have h0 : (c - k).toNat = 0 := by omega
        have h0' : (c - (k + 1)).toNat = 0 := by omega
        simp [skipLoop, hb, ih, h0, h0']
      · have key : (c - k).toNat = (c - (k + 1)).toNat + 1 := by omega
        simp [skipLoop, hb, ih, key]

/-- The map loop is `List.map`. -/
theorem mapLoop_eq (f : T1 → T2) (xs : List T1) : mapLoop f xs = xs.map f := by
  induction xs with
  | nil => simp [mapLoop]
  | cons s rest ih => simp [mapLoop, ih]

/-- The filter loop is `List.filter`. -/
theorem filterLoop_eq (p : T → Bool) (xs : List T) : filterLoop p xs = xs.filter p := by
  induction xs with
  | nil => simp [filterLoop]
  | cons s rest ih =>
      by_cases h : p s <;> simp [filterLoop, h, ih, List.filter_cons]

/-- Characterisation of the zip loop on two closing inputs: it sends the
pointwise combination, receives `min |A| (|B| + 1)` values from the first
input and `min |B| (|A| + 1)` from the second, and terminates (so the
output is closed). -/
theorem zipLoop_closed (f : T1 → T2 → T3) (A : List T1) : ∀ (B : List T2),
    zipLoop f true true A B =
      (List.zipWith f A B, min A.length (B.length + 1), min B.length (A.length + 1), true) := by
  induction A with
  | nil =>
      intro B
      cases B with
      | nil => simp [zipLoop]
      | cons y ys => simp [zipLoop]
  | cons x xs ih =>
      intro B
      cases B with
      | nil => simp [zipLoop]
      | cons y ys =>
          simp [zipLoop, ih ys]
          omega

/-- The count loop returns the length of the input. -/
theorem countLoop_eq (xs : List T) : countLoop xs = (xs.length : Int) := by
  induction xs with
  | nil => simp [countLoop]
  | cons s rest ih =>
      simp [countLoop, ih]
      try omega

/-- The sum loop adds the list's sum onto its accumulator. -/
theorem sumLoop_eq (xs : List Int) : ∀ (ret : Int), sumLoop ret xs = ret + xs.sum := by
  induction xs with
  | nil => intro ret; simp [sumLoop]
  | cons s rest ih => intro ret; simp [sumLoop, ih]; ring

/-- With the `first` flag down, the max loop folds `max` over the list. -/
theorem maxLoop_false_foldl [LinearOrder T] (xs : List T) : ∀ (m : T),
    maxLoop m false xs = xs.foldl max m := by
  induction xs with
  | nil => intro m; simp [maxLoop]
  | cons s rest ih =>
      intro m
      by_cases h : m < s
      · simp [maxLoop, h, ih, max_eq_right (le_of_lt h)]
      · simp [maxLoop, h, ih, max_eq_left (not_lt.mp h)]

/-- On a nonempty input the first element unconditionally replaces the
initial running maximum, whatever it was. -/
theorem maxLoop_seed [LinearOrder T] (z x : T) (xs : List T) :
    maxLoop z true (x :: xs) = maxLoop x false xs := by
  simp [maxLoop]

/-- Folding `max` over a list yields one of its elements. -/
theorem foldl_max_mem [LinearOrder T] (xs : List T) : ∀ (x : T), xs.foldl max x ∈ x :: xs := by
  induction xs with
  | nil => intro x; simp
  | cons y ys ih =>
      intro x
      rw [List.foldl_cons]
      rcases List.mem_cons.mp (ih (max x y)) with h1 | h2
      · rcases max_choice x y with hc | hc
        · rw [h1, hc]; exact List.mem_cons_self _ _
        · rw [h1, hc]; exact List.mem_cons_of_mem _ (List.mem_cons_self _ _)
      · exact List.mem_cons_of_mem _ (List.mem_cons_of_mem _ h2)

/-- Folding `max` over a list bounds every element (and the seed). -/
theorem le_foldl_max [LinearOrder T] (xs : List T) :
    ∀ (x y : T), y ∈ x :: xs → y ≤ xs.foldl max x := by
  induction xs with
  | nil =>
      intro x y hy
      simp only [List.mem_singleton] at hy
      simp [hy]
  | cons z zs ih =>
      intro x y hy
      rw [List.foldl_cons]
      rcases List.mem_cons.mp hy with h1 | h2
      · subst h1
        exact le_trans (le_max_left y z)
          (ih (max y z) (max y z) (List.mem_cons_self _ _))
      · rcases List.mem_cons.mp h2 with h3 | h4
        · subst h3
          exact le_trans (le_max_right x y)
            (ih (max x y) (max x y) (List.mem_cons_self _ _))
        · exact ih (max x z) y (List.mem_cons_of_mem _ h4)

/-- The fib loop produces one value per iteration. -/
theorem fibLoop_length (n : Nat) : ∀ (a b : Int), (fibLoop a b n).length = n := by
  induction n with
  | zero => intro a b; simp [fibLoop]
  | succ n ih => intro a b; simp [fibLoop, ih]

/-- Prefixes of the fib loop's output agree across fuel amounts. -/
theorem fibLoop_take (n : Nat) : ∀ (k : Nat) (a b : Int), k ≤ n →
    (fibLoop a b n).take k = fibLoop a b k := by
  induction n with
  | zero =>
      intro k a b hk
      have : k = 0 := by omega
      subst this
      simp [fibLoop]
  | succ n ih =>
      intro k a b hk
      cases k with
      | zero => simp [fibLoop]
      | succ k => simp [fibLoop, ih k b (a + b) (by omega)]

/-- The Fibonacci producer has an m-th prefix of length m for every m: it
sends values indefinitely and never closes its output. -/
theorem fibSends_length (m : Nat) : (fibSends m).length = m := by
  match m with
  | 0 => simp [fibSends]
  | 1 => simp [fibSends]
  | n + 2 => simp [fibSends, fibLoop_length]

/-- The prefixes sent by the Fibonacci producer are coherent: the values it
has sent never change as it sends more. -/
theorem fibSends_take (m k : Nat) (h : k ≤ m) : (fibSends m).take k = fibSends k := by
  match m, k with
  | 0, 0 => simp [fibSends]
  | 1, 0 => simp [fibSends]
  | 1, 1 => simp [fibSends]
  | n + 2, 0 => simp [fibSends]
  | n + 2, 1 => simp [fibSends]
  | n + 2, k + 2 =>
      have hk : k ≤ n := by omega
      simp [fibSends, fibLoop_take n k 1 1 hk]

/-- The stream a, b, then the fib loop's values obeys the Fibonacci
recurrence at every index where it is defined. -/
theorem fibStream_rec (n : Nat) : ∀ (a b : Int) (k : Nat), k + 2 < n + 2 →
    (a :: b :: fibLoop a b n).getD (k + 2) 0 =
      (a :: b :: fibLoop a b n).getD k 0 + (a :: b :: fibLoop a b n).getD (k + 1) 0 := by
  induction n with
  | zero => intro a b k hk; omega
  | succ n ih =>
      intro a b k hk
      cases k with
      | zero => simp [fibLoop]
      | succ k =>
          have hstep : fibLoop a b (n + 1) = (a + b) :: fibLoop b (a + b) n := rfl
          rw [hstep]
          have h4 : (a :: b :: (a + b) :: fibLoop b (a + b) n).getD (k + 3) 0 =
              (b :: (a + b) :: fibLoop b (a + b) n).getD (k + 2) 0 := rfl
          have h5 : (a :: b :: (a + b) :: fibLoop b (a + b) n).getD (k + 1) 0 =
              (b :: (a + b) :: fibLoop b (a + b) n).getD k 0 := rfl
          have h6 : (a :: b :: (a + b) :: fibLoop b (a + b) n).getD (k + 2) 0 =
              (b :: (a + b) :: fibLoop b (a + b) n).getD (k + 1) 0 := rfl
          rw [h4, h5, h6]
          exact ih b (a + b) k (by omega)

/-- Every value the Fibonacci producer sends after the first two is the sum
of the previous two. -/
theorem fibSends_rec (m k : Nat) (h : k + 2 < m) :
    (fibSends m).getD (k + 2) 0 = (fibSends m).getD k 0 + (fibSends m).getD (k + 1) 0 := by
  match m with
  | 0 => omega
  | 1 => omega
  | n + 2 =>
      have : fibSends (n + 2) = 1 :: 1 :: fibLoop 1 1 n := rfl
      rw [this]
      exact fibStream_rec n 1 1 k (by omega)

/-! Claim theorems. -/

/-- C1, counterexample: the claim says `Take(nil, n)` and `Skip(nil, n)`
return nil, but at n = 3 both return a non-nil output channel (whose stage
blocks forever on the nil input, so the output never delivers and never
closes). -/
theorem claim1_counterexample :
    Take (Chan.absent : Chan Int) 3 ≠ Chan.absent ∧
    Skip (Chan.absent : Chan Int) 3 ≠ Chan.absent := by
  refine ⟨?_, ?_⟩ <;> simp [Take, Skip]

/-- C1, amended: `Map`, `Filter` and `Zip` given a nil input return a nil
output and start no stage; `Take` and `Skip` given a nil input instead
return a non-nil output on which no value is ever sent and which is never
closed (their stage blocks forever ranging over the nil channel). -/
theorem claim1_nil_propagation (f : Int → Int) (p : Int → Bool)
    (g : Int → Int → Int) (ys : Chan Int) (n : Int) :
    Map (Chan.absent : Chan Int) f = Chan.absent ∧
    Filter (Chan.absent : Chan Int) p = Chan.absent ∧
    Zip (Chan.absent : Chan Int) ys g = Chan.absent ∧
    Zip ys (Chan.absent : Chan Int) g = Chan.absent ∧
    Take (Chan.absent : Chan Int) n = Chan.stream [] false ∧
    Skip (Chan.absent : Chan Int) n = Chan.stream [] false := by
  cases ys <;> simp [Map, Filter, Zip, Take, Skip]

/-- C2, counterexample: with input [10, 20, 30] and n = 1 the take loop
receives 2 values from its input, refuting "Take never consumes more than
n elements from its input". -/
theorem claim2_counterexample :
    ¬ ((takeLoop (1 : Int) 0 ([10, 20, 30] : List Int)).2.1 ≤ 1) := by
  decide

/-- C2, amended: for every input stream and every n ≥ 0, Take sends at
most the first n values received from the input, in input order, and
closes its output (always, on an input that closes; early whenever the
input offers more than n values); it consumes at most n + 1 values from
the input — exactly min(n + 1, length delivered) — so the input-side
producer remains blocked trying to send its (n+2)-th value. -/
theorem claim2_take_bounds (xs : List Int) (closes : Bool) (n : Int) (h : 0 ≤ n) :
    Take (Chan.stream xs closes) n =
      Chan.stream (xs.take n.toNat) (decide (n.toNat < xs.length) || closes) ∧
    (takeLoop n 0 xs).2.1 = min (n.toNat + 1) xs.length ∧
    (takeLoop n 0 xs).2.1 ≤ n.toNat + 1 := by
  have he := takeLoop_eq xs n 0 h
  have hn : (n - 0).toNat = n.toNat := by omega
  rw [hn] at he
  refine ⟨?_, ?_, ?_⟩
  · simp [Take, he]
  · rw [he]
  · rw [he]
    simp
    try omega

/-- C2, witness at input [10, 20, 30], n = 1. -/
theorem claim2_take_bounds_witness :
    Take (Chan.stream ([10, 20, 30] : List Int) true) 1 = Chan.stream [10] true ∧
    (takeLoop (1 : Int) 0 ([10, 20, 30] : List Int)).2.1 ≤ 2 := by
  have h := claim2_take_bounds [10, 20, 30] true 1 (by decide)
  exact ⟨by simpa using h.1, by simpa using h.2.2⟩

/-- C3: Take(From(L), n) delivers exactly the first min(n, |L|) elements
of L, in order, and its output is closed afterwards; for n = 0 the output
is closed with no values sent. -/
theorem claim3_take_from (L : List Int) (n : Nat) :
    Take (From L) (n : Int) = Chan.stream (L.take n) true ∧
    (L.take n).length = min n L.length ∧
    Take (From L) 0 = Chan.stream [] true := by
  have he := takeLoop_eq L (n : Int) 0 (by omega)
  have hn : ((n : Int) - 0).toNat = n := by omega
  rw [hn] at he
  refine ⟨?_, ?_, ?_⟩
  · simp [Take, From, he]
  · simp [List.length_take]
  · have he0 := takeLoop_eq L 0 0 (by omega)
    have h0 : ((0 : Int) - 0).toNat = 0 := by omega
    rw [h0] at he0
    simp [Take, From, he0]

/-- C4: Zip(From(A), From(B), f) delivers exactly min(|A|, |B|) values,
the i-th being f(A[i], B[i]) (the pointwise zip), closes its output, and
does not drain the longer input: it receives at most min(|A|, |B|) + 1
values from either input. -/
theorem claim4_zip_from (A B : List Int) (f : Int → Int → Int) :
    Zip (From A) (From B) f = Chan.stream (List.zipWith f A B) true ∧
    (List.zipWith f A B).length = min A.length B.length ∧
    (zipLoop f true true A B).2.1 ≤ min A.length B.length + 1 ∧
    (zipLoop f true true A B).2.2.1 ≤ min A.length B.length + 1 := by
  have hz := zipLoop_closed f A B
  refine ⟨?_, ?_, ?_, ?_⟩
  · simp [Zip, From, hz]
  · simp [List.length_zipWith]
  · rw [hz]; simp; omega
  · rw [hz]; simp; omega

/-- C5: Map(From(L), f) delivers exactly the f-image of L, one output per
input in input order, and in general Map's output closes exactly when its
input closes. -/
theorem claim5_map_from (L : List Int) (f : Int → Int) (xs : List Int) (c : Bool) :
    Map (From L) f = Chan.stream (L.map f) true ∧
    Map (Chan.stream xs c) f = Chan.stream (xs.map f) c := by
  constructor <;> simp [Map, From, mapLoop_eq]

/-- C6: Skip(From(L), n) delivers exactly L with its first min(n, |L|)
elements removed, in order, and closes; in general Skip's output closes
exactly when its input closes, and n = 0 forwards everything unchanged. -/
theorem claim6_skip_from (L : List Int) (n : Nat) (xs : List Int) (c : Bool) :
    Skip (From L) (n : Int) = Chan.stream (L.drop n) true ∧
    (L.drop n).length = L.length - min n L.length ∧
    Skip (Chan.stream xs c) (n : Int) = Chan.stream (xs.drop n) c ∧
    Skip (From L) 0 = Chan.stream L true := by
  have hsL := skipLoop_eq L (n : Int) 0
  have hsx := skipLoop_eq xs (n : Int) 0
  have hn : ((n : Int) - 0).toNat = n := by omega
  rw [hn] at hsL hsx
  refine ⟨?_, ?_, ?_, ?_⟩
  · simp [Skip, From, hsL]
  · simp [List.length_drop]; omega
  · simp [Skip, hsx]
  · have hs0 := skipLoop_eq L 0 0
    have h0 : ((0 : Int) - 0).toNat = 0 := by omega
    rw [h0] at hs0
    simp [Skip, From, hs0]

/-- C7: Count(From(L)) is the length of L and Sum(From(L)) is the
arithmetic sum of L (both 0 on the empty list). -/
theorem claim7_count_sum (L : List Int) :
    Count (From L) = some (L.length : Int) ∧ Sum (From L) = some L.sum := by
  constructor
  · simp [Count, From, countLoop_eq]
  · simp [Sum, From, sumLoop_eq]

/-- C8: First, Last and Max on an input that closes before any value
arrives return the element type's zero value; on a non-empty input Max
returns the maximum under the total order (it is a delivered element and
bounds every delivered element), seeded by unconditionally treating the
first element as the running maximum (the result does not depend on the
initial zero value z). -/
theorem claim8_aggregator_defaults (z x : Int) (xs : List Int) :
    First (0 : Int) (Chan.stream [] true) = some 0 ∧
    Last (0 : Int) (Chan.stream [] true) = some 0 ∧
    Max (0 : Int) (Chan.stream ([] : List Int) true) = some 0 ∧
    Max z (Chan.stream (x :: xs) true) = some (xs.foldl max x) ∧
    xs.foldl max x ∈ x :: xs ∧
    (∀ y ∈ x :: xs, y ≤ xs.foldl max x) := by
  refine ⟨rfl, rfl, rfl, ?_, foldl_max_mem xs x, fun y hy => le_foldl_max xs x y hy⟩
  simp [Max, maxLoop_seed, maxLoop_false_foldl]

/-- C8, witness: Max seeded with 5 on input [3, 1, 9, 2] is 9, and 9 bounds
the delivered element 9. -/
theorem claim8_aggregator_defaults_witness :
    Max (5 : Int) (Chan.stream ([3, 1, 9, 2] : List Int) true) = some 9 ∧
    (9 : Int) ≤ [1, 9, 2].foldl max 3 := by
  have h := claim8_aggregator_defaults 5 3 [1, 9, 2]
  refine ⟨?_, h.2.2.2.2.2 9 (by decide)⟩
  rw [h.2.2.2.1]
  decide

/-- C9: the Fibonacci producer sends 1, 1, then each subsequent value is
the sum of the previous two; it never closes (it has a coherent length-j
prefix for every j); and Take of its output with count 10 delivers exactly
[1, 1, 2, 3, 5, 8, 13, 21, 34, 55] and then closes, for every prefix of
the unending stream long enough for Take's 11 receives. -/
theorem claim9_fibonaccis (m : Nat) (h : 11 ≤ m) :
    (∀ j : Nat, (fibSends j).length = j) ∧
    (∀ j k : Nat, k ≤ j → (fibSends j).take k = fibSends k) ∧
    (fibSends m).getD 0 0 = 1 ∧ (fibSends m).getD 1 0 = 1 ∧
    (∀ k : Nat, k + 2 < m →
      (fibSends m).getD (k + 2) 0 =
        (fibSends m).getD k 0 + (fibSends m).getD (k + 1) 0) ∧
    Take (Chan.stream (fibSends m) false) 10 =
      Chan.stream [1, 1, 2, 3, 5, 8, 13, 21, 34, 55] true := by
  obtain ⟨n, rfl⟩ : ∃ n, m = n + 2 := ⟨m - 2, by omega⟩
  refine ⟨fibSends_length, fibSends_take, rfl, rfl,
    fun k hk => fibSends_rec (n + 2) k hk, ?_⟩
  have he := takeLoop_eq (fibSends (n + 2)) 10 0 (by omega)
  have hn : ((10 : Int) - 0).toNat = 10 := by omega
  rw [hn] at he
  have htake : (fibSends (n + 2)).take 10 = fibSends 10 :=
    fibSends_take (n + 2) 10 (by omega)
  have h10 : fibSends 10 = [1, 1, 2, 3, 5, 8, 13, 21, 34, 55] := by decide
  have hlen : (fibSends (n + 2)).length = n + 2 := fibSends_length (n + 2)
  have hlt : 10 < n + 2 := by omega
  simp [Take, he, htake, h10, hlen, hlt]

/-- C9, witness at the prefix of length 11. -/
theorem claim9_fibonaccis_witness :
    Take (Chan.stream (fibSends 11) false) 10 =
      Chan.stream [1, 1, 2, 3, 5, 8, 13, 21, 34, 55] true ∧
    (fibSends 11).getD 5 0 = (fibSends 11).getD 3 0 + (fibSends 11).getD 4 0 := by
  have h := claim9_fibonaccis 11 (by decide)
  exact ⟨h.2.2.2.2.2, h.2.2.2.2.1 3 (by decide)⟩

/-- C10: for every non-nil input stream and every n < 0, Take returns a
non-nil output on which no value is ever sent, consuming at most one value
from the input; the output is closed as soon as the input delivers a value
or closes; and the result is identical to Take(input, 0). -/
theorem claim10_take_negative (xs : List Int) (c : Bool) (n : Int) (h : n < 0) :
    Take (Chan.stream xs c) n ≠ Chan.absent ∧
    (takeLoop n 0 xs).1 = [] ∧
    (takeLoop n 0 xs).2.1 ≤ 1 ∧
    (xs ≠ [] ∨ c = true → Take (Chan.stream xs c) n = Chan.stream [] true) ∧
    Take (Chan.stream xs c) n = Take (Chan.stream xs c) 0 := by
  cases xs with
  | nil =>
      refine ⟨by simp [Take, takeLoop], by simp [takeLoop], by simp [takeLoop], ?_,
        by simp [Take, takeLoop]⟩
      intro hc
      rcases hc with hne | hc
      · exact absurd rfl hne
      · simp [Take, takeLoop, hc]
  | cons s rest =>
      have hb : n < 1 := by omega
      have hb0 : (0 : Int) < 1 := by omega
      refine ⟨by simp [Take, takeLoop, hb], by simp [takeLoop, hb],
        by simp [takeLoop, hb], ?_, by simp [Take, takeLoop, hb, hb0]⟩
      intro _
      simp [Take, takeLoop, hb]

/-- C10, witness at input [7, 8] (closing) and n = -3. -/
theorem claim10_take_negative_witness :
    Take (Chan.stream ([7, 8] : List Int) true) (-3) = Chan.stream [] true ∧
    Take (Chan.stream ([7, 8] : List Int) true) (-3) =
      Take (Chan.stream ([7, 8] : List Int) true) 0 := by
  have h := claim10_take_negative [7, 8] true (-3) (by decide)
  exact ⟨h.2.2.2.1 (Or.inl (by decide)), h.2.2.2.2⟩

end GoLinq
